import Mathlib

/-!
Verification of the rainradar repository (rainradar.py).

The source is a small Python 2 module: class RainRadar with methods
distance, nearest_rain, rain_colours and the generator search_outwards.
We embed it shallowly: machine arithmetic is exact (Python ints are
arbitrary precision), the PIL pixel accessor is an abstract function
from coordinates to an optional colour (none models the IndexError the
source catches), and the generator is rendered as the finite list of
the coordinates it yields.
-/

namespace RainRadar

/-- A pixel coordinate pair (x, y), origin at the top left. -/
abbrev Position := ℤ × ℤ

/-- An RGB colour triple. -/
abbrev Color := ℕ × ℕ × ℕ

/-- The `pixels` object obtained from PIL: an accessor from coordinates to
colours.  `none` models the IndexError raised on an out-of-range access,
which nearest_rain catches during the scan. -/
abbrev PixelAccessor := Position → Option Color

/-- Python 2's built-in cmp on integers: -1, 0 or 1 according to the sign
of the comparison. -/
def cmp (a b : ℤ) : ℤ :=
  if a < b then -1 else if a = b then 0 else 1

/-- RainRadar.distance: math.sqrt(((a[0] - b[0]) ** 2) + ((a[1] - b[1]) ** 2)),
read with exact real arithmetic. -/
noncomputable def distance (a b : Position) : ℝ :=
  Real.sqrt ((((a.1 - b.1 : ℤ) : ℝ)) ^ 2 + (((a.2 - b.2 : ℤ) : ℝ)) ^ 2)

/-- math.floor(self.distance(a, b)) as the source computes it on integer
coordinates: the squared distance is a nonnegative integer, and the floor
of the exact square root of a natural number is Nat.sqrt of it (the bridge
to the real-valued distance is proved below, floorDistance_eq_floor). -/
def floorDistance (a b : Position) : ℕ :=
  Nat.sqrt ((a.1 - b.1) ^ 2 + (a.2 - b.2) ^ 2).toNat

/-- One run of the while loop inside search_outwards, for a fixed ring:

    x = x_min; y = y_min
    while x <= x_max and y <= y_max:
        yield (x, y)
        if y in (y_min, y_max):
            if x == x_max: x = x_min; y += 1
            else: x += 1
        elif x == x_min: x = x_max
        elif x == x_max: x = x_min; y += 1

The fuel argument bounds the number of iterations; the closed form proved
below shows 8*d + 1 units suffice for the states the generator reaches.
In the one state the update chain leaves unchanged (x strictly between
x_min and x_max with y strictly between y_min and y_max, never reachable
from the entry state (x_min, y_min) when x_min < x_max), the source's
loop would repeat the same coordinate forever; the embedding stops. -/
def ringLoop (x_min x_max y_min y_max : ℤ) : ℕ → ℤ → ℤ → List Position
  | 0, _, _ => []
  | fuel + 1, x, y =>
    if x ≤ x_max ∧ y ≤ y_max then
      (x, y) ::
        (if y = y_min ∨ y = y_max then
          (if x = x_max then ringLoop x_min x_max y_min y_max fuel x_min (y + 1)
           else ringLoop x_min x_max y_min y_max fuel (x + 1) y)
         else if x = x_min then ringLoop x_min x_max y_min y_max fuel x_max y
         else if x = x_max then ringLoop x_min x_max y_min y_max fuel x_min (y + 1)
         else [])
    else []

/-- The coordinates yielded for one value of the for variable distance in
search_outwards: the while loop started at (x_min, y_min). -/
def ringAt (center : Position) (d : ℕ) : List Position :=
  ringLoop (center.1 - d) (center.1 + d) (center.2 - d) (center.2 + d)
    (8 * d + 1) (center.1 - d) (center.2 - d)

/-- RainRadar.search_outwards(center, max_distance): the full sequence of
coordinates the generator yields, ring by ring for

    for distance in range(1, max_distance + 1): ... -/
def search_outwards (center : Position) (max_distance : ℕ) : List Position :=
  (List.range' 1 max_distance).flatMap fun d => ringAt center d

/-- Chebyshev distance between two coordinates: the ring index a point
belongs to. -/
def cheb (c p : Position) : ℕ :=
  max (p.1 - c.1).natAbs (p.2 - c.2).natAbs

/-- First-match lookup in the association-list rendering of the quadrants
dict. -/
def lookupKey (k : ℤ × ℤ) : List ((ℤ × ℤ) × Position) → Option Position
  | [] => none
  | e :: rest => if e.1 = k then some e.2 else lookupKey k rest

/-- The for loop of nearest_rain over the generator's coordinates.  The
quadrants dict is carried as an association list in insertion order (the
source inserts a key at most once, and only reads the dict by key and by
sorted key order, so the rendering is faithful).  An accessor value of
none is the IndexError the source catches and ignores. -/
def scanLoop (pixels : PixelAccessor) (rain_colours : List Color)
    (position : Position) :
    List Position → List ((ℤ × ℤ) × Position) → List ((ℤ × ℤ) × Position)
  | [], quadrants => quadrants
  | point :: rest, quadrants =>
    if 4 ≤ quadrants.length then quadrants
    else
      match pixels point with
      | none => scanLoop pixels rain_colours position rest quadrants
      | some col =>
        if col ∈ rain_colours then
          if (lookupKey (cmp point.1 position.1, cmp point.2 position.2)
              quadrants).isSome then
            scanLoop pixels rain_colours position rest quadrants
          else
            scanLoop pixels rain_colours position rest
              (quadrants ++
                [((cmp point.1 position.1, cmp point.2 position.2), point)])
        else scanLoop pixels rain_colours position rest quadrants

/-- The same loop, also returning the list of coordinates at which the
pixel accessor was consulted (every point reaching the try block, whether
or not the access raises).  Its first component coincides with scanLoop
(lemma scanLoopTr_fst). -/
def scanLoopTr (pixels : PixelAccessor) (rain_colours : List Color)
    (position : Position) :
    List Position → List ((ℤ × ℤ) × Position) →
      List ((ℤ × ℤ) × Position) × List Position
  | [], quadrants => (quadrants, [])
  | point :: rest, quadrants =>
    if 4 ≤ quadrants.length then (quadrants, [])
    else
      match pixels point with
      | none =>
        let r := scanLoopTr pixels rain_colours position rest quadrants
        (r.1, point :: r.2)
      | some col =>
        if col ∈ rain_colours then
          if (lookupKey (cmp point.1 position.1, cmp point.2 position.2)
              quadrants).isSome then
            let r := scanLoopTr pixels rain_colours position rest quadrants
            (r.1, point :: r.2)
          else
            let r := scanLoopTr pixels rain_colours position rest
              (quadrants ++
                [((cmp point.1 position.1, cmp point.2 position.2), point)])
            (r.1, point :: r.2)
        else
          let r := scanLoopTr pixels rain_colours position rest quadrants
          (r.1, point :: r.2)

/-- The nine values a pair of cmp results can take, in the ascending
lexicographic order Python's sorted() produces on integer pairs.  Python's
sorted(quadrants) lists the dict's (distinct) keys in exactly this order
restricted to the present ones, which is what filtering this list by
presence computes. -/
def allSignPairs : List (ℤ × ℤ) :=
  [(-1, -1), (-1, 0), (-1, 1), (0, -1), (0, 0), (0, 1), (1, -1), (1, 0), (1, 1)]

/-- The result-building loop of nearest_rain:

    for quadrant in sorted(quadrants):
        result.append(math.floor(self.distance(quadrants[quadrant], position))) -/
def resultOf (quadrants : List ((ℤ × ℤ) × Position)) (position : Position) :
    List ℕ :=
  allSignPairs.filterMap fun k =>
    (lookupKey k quadrants).map fun p => floorDistance p position

/-- The quadrants dict produced by a full run of the scan of nearest_rain:
the spiral is driven to max(image.size) rings starting from the empty
dict. -/
def scanOf (pixels : PixelAccessor) (rain_colours : List Color)
    (width height : ℕ) (position : Position) : List ((ℤ × ℤ) × Position) :=
  scanLoop pixels rain_colours position
    (search_outwards position (max width height)) []

/-- RainRadar.nearest_rain.  The caller-visible outcome: none models the
uncaught IndexError when the initial centre lookup itself is out of
range; otherwise the returned list of floored distances. -/
def nearest_rain (pixels : PixelAccessor) (rain_colours : List Color)
    (width height : ℕ) (position : Position) : Option (List ℕ) :=
  match pixels position with
  | none => none
  | some c =>
    if c ∈ rain_colours then some [0, 0, 0, 0]
    else some (resultOf (scanOf pixels rain_colours width height position) position)

/-- The coordinates at which nearest_rain consults the pixel accessor, in
order: the centre lookup first, then (unless that lookup raises or finds
rain) every point the scan reaches. -/
def nearest_rain_accesses (pixels : PixelAccessor) (rain_colours : List Color)
    (width height : ℕ) (position : Position) : List Position :=
  match pixels position with
  | none => [position]
  | some c =>
    if c ∈ rain_colours then [position]
    else
      position ::
        (scanLoopTr pixels rain_colours position
          (search_outwards position (max width height)) []).2

/-- The four meaningful quadrant keys in the fixed output order the spec
names: NW, SW, NE, SE. -/
def quadKeys : List (ℤ × ℤ) := [(-1, -1), (-1, 1), (1, -1), (1, 1)]

/-! ### Closed form of one ring of the spiral

The while loop of search_outwards, entered at (x_min, y_min), first walks
the top row left to right, then for each intermediate row emits its left
point followed by its right point, and finally walks the bottom row left
to right.  The three segments below name these pieces; the equation is
proved in ringAt_closed. -/

/-- Top edge of ring d, left to right. -/
def ringTop (center : Position) (d : ℕ) : List Position :=
  (List.range (2 * d + 1)).map fun i : ℕ => (center.1 - d + (i : ℤ), center.2 - d)

/-- Intermediate rows of ring d, top to bottom, each contributing its left
point then its right point. -/
def ringMiddle (center : Position) (d : ℕ) : List Position :=
  (List.range (2 * d - 1)).flatMap fun j : ℕ =>
    [(center.1 - d, center.2 - d + 1 + (j : ℤ)),
     (center.1 + d, center.2 - d + 1 + (j : ℤ))]

/-- Bottom edge of ring d, left to right. -/
def ringBottom (center : Position) (d : ℕ) : List Position :=
  (List.range (2 * d + 1)).map fun i : ℕ => (center.1 - d + (i : ℤ), center.2 + d)

lemma ringLoop_stop (x_min x_max y_min y_max : ℤ) (fuel : ℕ) (x y : ℤ)
    (h : y_max < y) : ringLoop x_min x_max y_min y_max fuel x y = [] := by
  cases fuel with
  | zero => rfl
  | succ n =>
    have : ¬ (x ≤ x_max ∧ y ≤ y_max) := by omega
    simp [ringLoop, this]

lemma ringLoop_row (x_min x_max y_min y_max y : ℤ)
    (hy : y = y_min ∨ y = y_max) (hy2 : y ≤ y_max) :
    ∀ (k fuel : ℕ) (x : ℤ), x_max = x + k →
      ringLoop x_min x_max y_min y_max (fuel + k + 1) x y =
        ((List.range (k + 1)).map fun i : ℕ => (x + (i : ℤ), y)) ++
          ringLoop x_min x_max y_min y_max fuel x_min (y + 1) := by
  intro k
  induction k with
  | zero =>
    intro fuel x hx
    have h1 : x ≤ x_max := by omega
    have h2 : x = x_max := by omega
    rw [show ringLoop x_min x_max y_min y_max (fuel + 0 + 1) x y =
          if x ≤ x_max ∧ y ≤ y_max then
            (x, y) ::
              (if y = y_min ∨ y = y_max then
                (if x = x_max then
                  ringLoop x_min x_max y_min y_max fuel x_min (y + 1)
                 else ringLoop x_min x_max y_min y_max fuel (x + 1) y)
               else if x = x_min then
                 ringLoop x_min x_max y_min y_max fuel x_max y
               else if x = x_max then
                 ringLoop x_min x_max y_min y_max fuel x_min (y + 1)
               else [])
          else [] from rfl]
    rw [if_pos ⟨h1, hy2⟩, if_pos hy, if_pos h2]
    rw [show List.range 1 = [0] from rfl]
    simp
  | succ k ih =>
    intro fuel x hx
    have h1 : x ≤ x_max := by push_cast at hx; omega
    have h2 : ¬ x = x_max := by push_cast at hx; omega
    rw [show fuel + (k + 1) + 1 = (fuel + k + 1) + 1 from rfl]
    rw [show ringLoop x_min x_max y_min y_max (fuel + k + 1 + 1) x y =
          if x ≤ x_max ∧ y ≤ y_max then
            (x, y) ::
              (if y = y_min ∨ y = y_max then
                (if x = x_max then
                  ringLoop x_min x_max y_min y_max (fuel + k + 1) x_min (y + 1)
                 else ringLoop x_min x_max y_min y_max (fuel + k + 1) (x + 1) y)
               else if x = x_min then
                 ringLoop x_min x_max y_min y_max (fuel + k + 1) x_max y
               else if x = x_max then
                 ringLoop x_min x_max y_min y_max (fuel + k + 1) x_min (y + 1)
               else [])
          else [] from rfl]
    rw [if_pos ⟨h1, hy2⟩, if_pos hy, if_neg h2]
    rw [ih fuel (x + 1) (by push_cast at hx ⊢; omega)]
    have harith : ∀ b : ℤ, x + (b + 1) = x + 1 + b := fun b => by omega
    have hmap : (List.range (k + 1 + 1)).map (fun i : ℕ => (x + (i : ℤ), y)) =
        (x, y) :: (List.range (k + 1)).map fun i : ℕ => (x + 1 + (i : ℤ), y) := by
      rw [List.range_succ_eq_map, List.map_cons, List.map_map]
      simp only [Nat.cast_zero, add_zero]
      congr 1
      apply List.map_congr_left
      intro a _
      simp only [Function.comp_apply, Nat.cast_succ, harith]
    rw [hmap]
    simp

lemma ringLoop_pair (x_min x_max y_min y_max y : ℤ) (fuel : ℕ)
    (hymin : y_min < y) (hymax : y < y_max) (hx : x_min < x_max) :
    ringLoop x_min x_max y_min y_max (fuel + 2) x_min y =
      (x_min, y) :: (x_max, y) ::
        ringLoop x_min x_max y_min y_max fuel x_min (y + 1) := by
  have h1 : x_min ≤ x_max := le_of_lt hx
  have h2 : y ≤ y_max := le_of_lt hymax
  have h3 : ¬ (y = y_min ∨ y = y_max) := by omega
  have h4 : ¬ x_max = x_min := by omega
  show ringLoop x_min x_max y_min y_max (fuel + 1 + 1) x_min y = _
  simp [ringLoop, h1, h2, h3, h4]

lemma ringLoop_middle (x_min x_max y_min y_max : ℤ) (hx : x_min < x_max) :
    ∀ (m fuel : ℕ) (y : ℤ), y_min < y → y + m ≤ y_max →
      ringLoop x_min x_max y_min y_max (fuel + 2 * m) x_min y =
        ((List.range m).flatMap fun j : ℕ =>
          [(x_min, y + (j : ℤ)), (x_max, y + (j : ℤ))]) ++
          ringLoop x_min x_max y_min y_max fuel x_min (y + m) := by
  intro m
  induction m with
  | zero => intro fuel y _ _; simp
  | succ m ih =>
    intro fuel y hy1 hy2
    have hlt : y < y_max := by push_cast at hy2; omega
    rw [show fuel + 2 * (m + 1) = (fuel + 2 * m) + 2 from by omega]
    rw [ringLoop_pair x_min x_max y_min y_max y (fuel + 2 * m) hy1 hlt hx]
    rw [ih fuel (y + 1) (by omega) (by push_cast at hy2 ⊢; omega)]
    have harith : ∀ b : ℤ, y + (b + 1) = y + 1 + b := fun b => by omega
    have hflat : (List.range (m + 1)).flatMap
          (fun j : ℕ => [(x_min, y + (j : ℤ)), (x_max, y + (j : ℤ))]) =
        (x_min, y) :: (x_max, y) ::
          (List.range m).flatMap fun j : ℕ =>
            [(x_min, y + 1 + (j : ℤ)), (x_max, y + 1 + (j : ℤ))] := by
      rw [List.range_succ_eq_map]
      simp only [List.flatMap_cons, Nat.cast_zero, add_zero, List.flatMap_map,
        List.cons_append, List.nil_append]
      congr 1
      congr 1
      apply List.flatMap_congr
      intro a _
      simp only [Nat.cast_succ, harith]
    rw [hflat, List.cons_append, List.cons_append]
    congr 2
    congr 1
    push_cast
    ring_nf

/-- The while loop of search_outwards, run from its entry state, produces
exactly the top edge, the interleaved intermediate rows, and the bottom
edge of the ring. -/
lemma ringAt_closed (center : Position) (d : ℕ) (hd : 1 ≤ d) :
    ringAt center d = ringTop center d ++ ringMiddle center d ++ ringBottom center d := by
  unfold ringAt
  have hx : center.1 + (d : ℤ) = (center.1 - d) + (2 * d : ℕ) := by push_cast; omega
  rw [show 8 * d + 1 = (6 * d) + (2 * d) + 1 from by omega]
  rw [ringLoop_row _ _ _ _ _ (Or.inl rfl) (by omega) (2 * d) (6 * d) _ hx]
  rw [show 6 * d = (2 * d + 2) + 2 * (2 * d - 1) from by omega]
  rw [ringLoop_middle _ _ _ _ (by omega) (2 * d - 1) (2 * d + 2)
    (center.2 - d + 1) (by omega) (by omega)]
  rw [show (2 : ℕ) * d + 2 = (1 + 2 * d) + 1 from by omega]
  rw [ringLoop_row _ _ _ _ _ (Or.inr (by omega)) (by omega)
    (2 * d) 1 _ (by push_cast at hx ⊢; omega)]
  rw [ringLoop_stop _ _ _ _ _ _ _ (by omega)]
  have hy : center.2 - (d : ℤ) + 1 + (2 * d - 1 : ℕ) = center.2 + d := by
    omega
  rw [hy]
  unfold ringTop ringMiddle ringBottom
  simp only [List.append_nil]
  rw [List.append_assoc]

/-! ### Membership, freedom from duplicates and ordering of the spiral -/

lemma mem_ringTop {center : Position} {d : ℕ} {p : Position} :
    p ∈ ringTop center d ↔
      p.2 = center.2 - d ∧ center.1 - d ≤ p.1 ∧ p.1 ≤ center.1 + d := by
  unfold ringTop
  simp only [List.mem_map, List.mem_range]
  constructor
  · rintro ⟨i, hi, rfl⟩
    refine ⟨rfl, by push_cast; omega, by push_cast; omega⟩
  · rintro ⟨h2, hl, hr⟩
    refine ⟨(p.1 - (center.1 - d)).toNat, by omega, ?_⟩
    refine Prod.ext ?_ ?_
    · show center.1 - (d : ℤ) + ((p.1 - (center.1 - d)).toNat : ℤ) = p.1
      omega
    · exact h2.symm

lemma mem_ringBottom {center : Position} {d : ℕ} {p : Position} :
    p ∈ ringBottom center d ↔
      p.2 = center.2 + d ∧ center.1 - d ≤ p.1 ∧ p.1 ≤ center.1 + d := by
  unfold ringBottom
  simp only [List.mem_map, List.mem_range]
  constructor
  · rintro ⟨i, hi, rfl⟩
    refine ⟨rfl, by push_cast; omega, by push_cast; omega⟩
  · rintro ⟨h2, hl, hr⟩
    refine ⟨(p.1 - (center.1 - d)).toNat, by omega, ?_⟩
    refine Prod.ext ?_ ?_
    · show center.1 - (d : ℤ) + ((p.1 - (center.1 - d)).toNat : ℤ) = p.1
      omega
    · exact h2.symm

lemma mem_ringMiddle {center : Position} {d : ℕ} {p : Position} :
    p ∈ ringMiddle center d ↔
      (p.1 = center.1 - d ∨ p.1 = center.1 + d) ∧
        center.2 - d + 1 ≤ p.2 ∧ p.2 + 1 ≤ center.2 + d := by
  unfold ringMiddle
  simp only [List.mem_flatMap, List.mem_range, List.mem_cons, List.not_mem_nil,
    or_false]
  constructor
  · rintro ⟨j, hj, rfl | rfl⟩
    · exact ⟨Or.inl rfl, by push_cast; omega, by push_cast; omega⟩
    · exact ⟨Or.inr rfl, by push_cast; omega, by push_cast; omega⟩
  · rintro ⟨h1, h2, h3⟩
    refine ⟨(p.2 - (center.2 - d + 1)).toNat, by omega, ?_⟩
    rcases h1 with h1 | h1
    · refine Or.inl (Prod.ext h1 ?_)
      show p.2 = center.2 - (d : ℤ) + 1 + ((p.2 - (center.2 - d + 1)).toNat : ℤ)
      omega
    · refine Or.inr (Prod.ext h1 ?_)
      show p.2 = center.2 - (d : ℤ) + 1 + ((p.2 - (center.2 - d + 1)).toNat : ℤ)
      omega

lemma cheb_max_cases {c p : Position} {d : ℕ} :
    cheb c p = d ↔
      ((p.1 - c.1).natAbs = d ∧ (p.2 - c.2).natAbs ≤ d) ∨
        ((p.2 - c.2).natAbs = d ∧ (p.1 - c.1).natAbs ≤ d) := by
  unfold cheb
  rcases le_total ((p.1 - c.1).natAbs) ((p.2 - c.2).natAbs) with h | h
  · rw [max_eq_right h]; omega
  · rw [max_eq_left h]; omega

/-- Ring d of the spiral holds exactly the coordinates at Chebyshev
distance d from the centre. -/
lemma mem_ringAt {center : Position} {d : ℕ} (hd : 1 ≤ d) {p : Position} :
    p ∈ ringAt center d ↔ cheb center p = d := by
  rw [ringAt_closed center d hd, cheb_max_cases]
  simp only [List.mem_append, mem_ringTop, mem_ringMiddle, mem_ringBottom]
  omega

lemma nodup_ringAt (center : Position) {d : ℕ} (hd : 1 ≤ d) :
    (ringAt center d).Nodup := by
  rw [ringAt_closed center d hd]
  have htop : (ringTop center d).Nodup := by
    unfold ringTop
    refine List.Nodup.map ?_ (List.nodup_range _)
    intro a b hab
    simp only [Prod.ext_iff] at hab
    omega
  have hbot : (ringBottom center d).Nodup := by
    unfold ringBottom
    refine List.Nodup.map ?_ (List.nodup_range _)
    intro a b hab
    simp only [Prod.ext_iff] at hab
    omega
  have hmid : (ringMiddle center d).Nodup := by
    unfold ringMiddle
    rw [List.nodup_flatMap]
    constructor
    · intro j hj
      simp [Prod.ext_iff]
      omega
    · refine (List.pairwise_lt_range _).imp_of_mem ?_
      intro a b _ _ hab q hqa hqb
      simp only [List.mem_cons, List.not_mem_nil, or_false, Prod.ext_iff] at hqa hqb
      omega
  refine List.Nodup.append (List.Nodup.append htop hmid ?_) hbot ?_
  · intro q hq1 hq2
    rw [mem_ringTop] at hq1
    rw [mem_ringMiddle] at hq2
    omega
  · intro q hq1 hq2
    rw [List.mem_append, mem_ringTop, mem_ringMiddle] at hq1
    rw [mem_ringBottom] at hq2
    omega

/-- The whole spiral enumeration never repeats a coordinate. -/
lemma nodup_search_outwards (center : Position) (D : ℕ) :
    (search_outwards center D).Nodup := by
  unfold search_outwards
  rw [List.nodup_flatMap]
  constructor
  · intro d hd
    exact nodup_ringAt center (List.mem_range'_1.mp hd).1
  · refine (List.pairwise_lt_range' 1 D).imp_of_mem ?_
    intro a b ha hb hab q hqa hqb
    have ha1 : 1 ≤ a := (List.mem_range'_1.mp ha).1
    have hb1 : 1 ≤ b := (List.mem_range'_1.mp hb).1
    rw [mem_ringAt ha1] at hqa
    rw [mem_ringAt hb1] at hqb
    omega

/-- A coordinate is enumerated iff its Chebyshev distance from the centre
lies between 1 and the maximum distance. -/
lemma mem_search_outwards {center : Position} {D : ℕ} {p : Position} :
    p ∈ search_outwards center D ↔ 1 ≤ cheb center p ∧ cheb center p ≤ D := by
  unfold search_outwards
  simp only [List.mem_flatMap]
  constructor
  · rintro ⟨d, hd, hp⟩
    rw [List.mem_range'_1] at hd
    rw [mem_ringAt hd.1] at hp
    omega
  · rintro ⟨h1, h2⟩
    exact ⟨cheb center p, List.mem_range'_1.mpr ⟨h1, by omega⟩,
      (mem_ringAt h1).mpr rfl⟩

/-- Rings are enumerated inner to outer: Chebyshev distances never
decrease along the spiral. -/
lemma pairwise_cheb_le (center : Position) (D : ℕ) :
    List.Pairwise (fun p q => cheb center p ≤ cheb center q)
      (search_outwards center D) := by
  unfold search_outwards
  rw [List.pairwise_flatMap]
  constructor
  · intro d hd
    have h1 : 1 ≤ d := (List.mem_range'_1.mp hd).1
    refine List.pairwise_of_forall_mem_list ?_
    intro a ha b hb
    rw [mem_ringAt h1] at ha hb
    omega
  · refine (List.pairwise_lt_range' 1 D).imp_of_mem ?_
    intro a b ha hb hab x hx y hy
    have ha1 : 1 ≤ a := (List.mem_range'_1.mp ha).1
    have hb1 : 1 ≤ b := (List.mem_range'_1.mp hb).1
    rw [mem_ringAt ha1] at hx
    rw [mem_ringAt hb1] at hy
    omega

lemma cheb_self (center : Position) : cheb center center = 0 := by
  simp [cheb]

lemma center_not_mem_search_outwards (center : Position) (D : ℕ) :
    center ∉ search_outwards center D := by
  rw [mem_search_outwards, cheb_self]
  omega

/-! ### Properties of the scan loop and of the result construction -/

lemma scanLoopTr_fst (pixels : PixelAccessor) (pal : List Color)
    (pos : Position) :
    ∀ (l : List Position) (q : List ((ℤ × ℤ) × Position)),
      (scanLoopTr pixels pal pos l q).1 = scanLoop pixels pal pos l q := by
  intro l
  induction l with
  | nil => intro q; rfl
  | cons p rest ih =>
    intro q
    unfold scanLoopTr scanLoop
    by_cases h4 : 4 ≤ q.length
    · simp [h4]
    · simp only [if_neg h4]
      cases hpx : pixels p with
      | none => simpa using ih q
      | some col =>
        by_cases hc : col ∈ pal
        · simp only [if_pos hc]
          by_cases hk : (lookupKey (cmp p.1 pos.1, cmp p.2 pos.2) q).isSome
          · simp only [if_pos hk]; simpa using ih q
          · simp only [if_neg hk]; simpa using ih _
        · simp only [if_neg hc]; simpa using ih q

lemma scanLoop_length_le (pixels : PixelAccessor) (pal : List Color)
    (pos : Position) :
    ∀ (l : List Position) (q : List ((ℤ × ℤ) × Position)),
      q.length ≤ 4 → (scanLoop pixels pal pos l q).length ≤ 4 := by
  intro l
  induction l with
  | nil => intro q h; exact h
  | cons p rest ih =>
    intro q h
    unfold scanLoop
    by_cases h4 : 4 ≤ q.length
    · simpa [h4] using h
    · simp only [if_neg h4]
      cases hpx : pixels p with
      | none => exact ih q h
      | some col =>
        by_cases hc : col ∈ pal
        · simp only [if_pos hc]
          by_cases hk : (lookupKey (cmp p.1 pos.1, cmp p.2 pos.2) q).isSome
          · simp only [if_pos hk]; exact ih q h
          · simp only [if_neg hk]
            refine ih _ ?_
            simp only [List.length_append, List.length_singleton]
            omega
        · simp only [if_neg hc]; exact ih q h

lemma lookupKey_isSome_iff {k : ℤ × ℤ} :
    ∀ {q : List ((ℤ × ℤ) × Position)},
      (lookupKey k q).isSome ↔ k ∈ q.map Prod.fst := by
  intro q
  induction q with
  | nil => simp [lookupKey]
  | cons e rest ih =>
    by_cases h : e.1 = k
    · simp [lookupKey, h]
    · simp only [lookupKey, if_neg h, List.map_cons, List.mem_cons, ih]
      have : ¬ k = e.1 := fun hk => h hk.symm
      simp [this]

lemma cmp_mem_allSignPairs (a b c d : ℤ) :
    (cmp a b, cmp c d) ∈ allSignPairs := by
  unfold cmp allSignPairs
  split_ifs <;> simp

lemma scanLoop_keys (pixels : PixelAccessor) (pal : List Color)
    (pos : Position) :
    ∀ (l : List Position) (q : List ((ℤ × ℤ) × Position)),
      (∀ e ∈ q, e.1 ∈ allSignPairs) →
      ∀ e ∈ scanLoop pixels pal pos l q, e.1 ∈ allSignPairs := by
  intro l
  induction l with
  | nil => intro q h; exact h
  | cons p rest ih =>
    intro q h
    unfold scanLoop
    by_cases h4 : 4 ≤ q.length
    · simpa [h4] using h
    · simp only [if_neg h4]
      cases hpx : pixels p with
      | none => exact ih q h
      | some col =>
        by_cases hc : col ∈ pal
        · simp only [if_pos hc]
          by_cases hk : (lookupKey (cmp p.1 pos.1, cmp p.2 pos.2) q).isSome
          · simp only [if_pos hk]; exact ih q h
          · simp only [if_neg hk]
            refine ih _ ?_
            intro e he
            rcases List.mem_append.mp he with he | he
            · exact h e he
            · rcases List.mem_singleton.mp he with rfl
              exact cmp_mem_allSignPairs _ _ _ _
        · simp only [if_neg hc]; exact ih q h

lemma scanLoopTr_stopped (pixels : PixelAccessor) (pal : List Color)
    (pos : Position) (l : List Position) (q : List ((ℤ × ℤ) × Position))
    (h : 4 ≤ q.length) : (scanLoopTr pixels pal pos l q).2 = [] := by
  cases l with
  | nil => rfl
  | cons p rest => simp [scanLoopTr, h]

lemma scanLoopTr_append (pixels : PixelAccessor) (pal : List Color)
    (pos : Position) :
    ∀ (l₁ : List Position) (q : List ((ℤ × ℤ) × Position)) (l₂ : List Position),
      4 ≤ (scanLoop pixels pal pos l₁ q).length →
      (scanLoopTr pixels pal pos (l₁ ++ l₂) q).2 =
        (scanLoopTr pixels pal pos l₁ q).2 := by
  intro l₁
  induction l₁ with
  | nil =>
    intro q l₂ h
    have hq : 4 ≤ q.length := h
    rw [List.nil_append, scanLoopTr_stopped pixels pal pos l₂ q hq]
    rfl
  | cons p rest ih =>
    intro q l₂ h
    rw [List.cons_append]
    by_cases h4 : 4 ≤ q.length
    · simp [scanLoopTr, h4]
    · unfold scanLoop at h
      simp only [if_neg h4] at h
      unfold scanLoopTr
      simp only [if_neg h4]
      cases hpx : pixels p with
      | none =>
        rw [hpx] at h
        simp only
        rw [ih q l₂ h]
      | some col =>
        rw [hpx] at h
        simp only
        by_cases hc : col ∈ pal
        · simp only [if_pos hc] at h ⊢
          by_cases hk : (lookupKey (cmp p.1 pos.1, cmp p.2 pos.2) q).isSome
          · simp only [if_pos hk] at h ⊢
            rw [ih q l₂ h]
          · simp only [if_neg hk] at h ⊢
            rw [ih _ l₂ h]
        · simp only [if_neg hc] at h ⊢
          rw [ih q l₂ h]

lemma four_le_length_of_quadKeys (q : List ((ℤ × ℤ) × Position))
    (h : ∀ k ∈ quadKeys, (lookupKey k q).isSome) : 4 ≤ q.length := by
  have hsub : quadKeys ⊆ q.map Prod.fst := fun k hk =>
    lookupKey_isSome_iff.mp (h k hk)
  have hnd : quadKeys.Nodup := by decide
  have hle := (hnd.subperm hsub).length_le
  simpa using hle

lemma length_filterMap_eq_length_filter (f : (ℤ × ℤ) → Option ℕ) :
    ∀ l : List (ℤ × ℤ),
      (l.filterMap f).length = (l.filter fun k => (f k).isSome).length := by
  intro l
  induction l with
  | nil => rfl
  | cons a l ih =>
    cases hf : f a <;>
      simp [List.filterMap_cons, hf, List.filter_cons, ih]

/-- The result list is never longer than the quadrants dict. -/
lemma resultOf_length_le (q : List ((ℤ × ℤ) × Position)) (pos : Position) :
    (resultOf q pos).length ≤ q.length := by
  unfold resultOf
  rw [length_filterMap_eq_length_filter]
  have hnd : (allSignPairs.filter fun k =>
      ((lookupKey k q).map fun p => floorDistance p pos).isSome).Nodup :=
    (by decide : allSignPairs.Nodup).filter _
  have hsub : (allSignPairs.filter fun k =>
      ((lookupKey k q).map fun p => floorDistance p pos).isSome) ⊆
        q.map Prod.fst := by
    intro k hk
    have hks := (List.mem_filter.mp hk).2
    simp only [Option.isSome_map] at hks
    exact lookupKey_isSome_iff.mp (by simpa using hks)
  have hle := (hnd.subperm hsub).length_le
  simpa using hle

/-- The floored distance computed by the source is the floor of the exact
Euclidean distance. -/
lemma floorDistance_eq_floor (a b : Position) :
    (floorDistance a b : ℤ) = ⌊distance a b⌋ := by
  unfold floorDistance distance
  have h0 : (0 : ℤ) ≤ (a.1 - b.1) ^ 2 + (a.2 - b.2) ^ 2 := by positivity
  have h1 : ((((a.1 - b.1) ^ 2 + (a.2 - b.2) ^ 2).toNat : ℕ) : ℤ) =
      (a.1 - b.1) ^ 2 + (a.2 - b.2) ^ 2 := Int.toNat_of_nonneg h0
  have h : (((a.1 - b.1 : ℤ) : ℝ)) ^ 2 + (((a.2 - b.2 : ℤ) : ℝ)) ^ 2 =
      ((((a.1 - b.1) ^ 2 + (a.2 - b.2) ^ 2).toNat : ℕ) : ℝ) := by
    calc (((a.1 - b.1 : ℤ) : ℝ)) ^ 2 + (((a.2 - b.2 : ℤ) : ℝ)) ^ 2 =
        (((a.1 - b.1) ^ 2 + (a.2 - b.2) ^ 2 : ℤ) : ℝ) := by push_cast; ring
      _ = (((((a.1 - b.1) ^ 2 + (a.2 - b.2) ^ 2).toNat : ℕ) : ℤ) : ℝ) := by
        rw [h1]
      _ = ((((a.1 - b.1) ^ 2 + (a.2 - b.2) ^ 2).toNat : ℕ) : ℝ) := by
        norm_cast
  rw [h, Real.floor_real_sqrt_eq_nat_sqrt]

/-- After the break condition holds, the loop consumes nothing more: the
dict is returned unchanged. -/
lemma scanLoop_stopped (pixels : PixelAccessor) (pal : List Color)
    (pos : Position) (l : List Position) (q : List ((ℤ × ℤ) × Position))
    (h : 4 ≤ q.length) : scanLoop pixels pal pos l q = q := by
  cases l with
  | nil => rfl
  | cons p rest => simp [scanLoop, h]

/-! ### Concrete scenarios

Small concrete images used to instantiate the theorems: an accessor
returns colours inside the stated bounds and none (the IndexError)
outside. -/

/-- The single-colour palette used by the concrete scenarios. -/
def redPalette : List Color := [(255, 0, 0)]

/-- 3x3 image, all white except rain at (1, 0): directly north of the
centre (1, 1). -/
def pixelsNorth : PixelAccessor := fun p =>
  if 0 ≤ p.1 ∧ p.1 < 3 ∧ 0 ≤ p.2 ∧ p.2 < 3 then
    (if p = (1, 0) then some (255, 0, 0) else some (255, 255, 255))
  else none

/-- 3x3 image, all white except rain at (1, 2): directly south of the
centre (1, 1). -/
def pixelsSouth : PixelAccessor := fun p =>
  if 0 ≤ p.1 ∧ p.1 < 3 ∧ 0 ≤ p.2 ∧ p.2 < 3 then
    (if p = (1, 2) then some (255, 0, 0) else some (255, 255, 255))
  else none

/-- 3x3 image, all white except rain at (0, 0): the NW neighbour of the
centre (1, 1). -/
def pixelsNW : PixelAccessor := fun p =>
  if 0 ≤ p.1 ∧ p.1 < 3 ∧ 0 ≤ p.2 ∧ p.2 < 3 then
    (if p = (0, 0) then some (255, 0, 0) else some (255, 255, 255))
  else none

/-- 3x3 image with rain at the four diagonal neighbours of the centre
(1, 1). -/
def pixelsDiag : PixelAccessor := fun p =>
  if 0 ≤ p.1 ∧ p.1 < 3 ∧ 0 ≤ p.2 ∧ p.2 < 3 then
    (if p = (0, 0) ∨ p = (2, 0) ∨ p = (0, 2) ∨ p = (2, 2) then
      some (255, 0, 0)
     else some (255, 255, 255))
  else none

/-- 3x3 image with rain at the centre (1, 1) itself. -/
def pixelsCentre : PixelAccessor := fun p =>
  if 0 ≤ p.1 ∧ p.1 < 3 ∧ 0 ≤ p.2 ∧ p.2 < 3 then
    (if p = (1, 1) then some (255, 0, 0) else some (255, 255, 255))
  else none

/-- 2x2 image, all white. -/
def pixelsWhite2 : PixelAccessor := fun p =>
  if 0 ≤ p.1 ∧ p.1 < 2 ∧ 0 ≤ p.2 ∧ p.2 < 2 then some (255, 255, 255)
  else none

/-- The within-ring traversal order the spec describes, written from the
spec's words for comparison with the source's order: top edge left to
right, then bottom edge left to right, then left edge top to bottom, then
right edge top to bottom, corners excluded from the vertical edges. -/
def specRingOrder (center : Position) (d : ℕ) : List Position :=
  ((List.range (2 * d + 1)).map fun i : ℕ =>
      (center.1 - d + (i : ℤ), center.2 - d)) ++
    ((List.range (2 * d + 1)).map fun i : ℕ =>
      (center.1 - d + (i : ℤ), center.2 + d)) ++
    ((List.range (2 * d - 1)).map fun j : ℕ =>
      (center.1 - d, center.2 - d + 1 + (j : ℤ))) ++
    ((List.range (2 * d - 1)).map fun j : ℕ =>
      (center.1 + d, center.2 - d + 1 + (j : ℤ)))

/-! ### The claims -/

/-- C4: for every centre and maximum distance, the spiral enumerates, for
each ring radius r between 1 and the maximum, exactly the coordinates at
Chebyshev distance r (the perimeter of the axis-aligned square of
half-width r), each exactly once, with no duplicate anywhere and with
rings in non-decreasing order. -/
theorem spiral_ring_coverage (center : Position) (D : ℕ) :
    (search_outwards center D).Nodup ∧
      (∀ p : Position, p ∈ search_outwards center D ↔
        1 ≤ cheb center p ∧ cheb center p ≤ D) ∧
      List.Pairwise (fun p q => cheb center p ≤ cheb center q)
        (search_outwards center D) :=
  ⟨nodup_search_outwards center D, fun _ => mem_search_outwards,
    pairwise_cheb_le center D⟩

/-- Witness for C4: the corner (0, 0) of ring 1 around (1, 1) is
enumerated. -/
theorem spiral_ring_coverage_witness :
    (0, 0) ∈ search_outwards (1, 1) 2 :=
  ((spiral_ring_coverage (1, 1) 2).2.1 (0, 0)).mpr (by decide)

/-- C10: every coordinate of ring d lies at Chebyshev distance exactly d
from the centre, the centre itself is never yielded, and Chebyshev
distances are non-decreasing along the full enumeration. -/
theorem spiral_cheb_invariant :
    (∀ (center : Position) (d : ℕ), 1 ≤ d →
        ∀ p ∈ ringAt center d, cheb center p = d) ∧
      (∀ (center : Position) (D : ℕ), center ∉ search_outwards center D) ∧
      (∀ (center : Position) (D : ℕ),
        List.Pairwise (fun p q => cheb center p ≤ cheb center q)
          (search_outwards center D)) :=
  ⟨fun _ _ hd _ hp => (mem_ringAt hd).mp hp,
    fun c D => center_not_mem_search_outwards c D,
    fun c D => pairwise_cheb_le c D⟩

/-- Witness for C10 at ring 1 of centre (0, 0). -/
theorem spiral_cheb_invariant_witness :
    cheb (0, 0) (1, 1) = 1 ∧ (0, 0) ∉ search_outwards (0, 0) 2 :=
  ⟨spiral_cheb_invariant.1 (0, 0) 1 (by decide) (1, 1) (by decide),
    spiral_cheb_invariant.2.1 (0, 0) 2⟩

/-- C8 counterexample: at ring 1 around (0, 0) the source's traversal is
not the spec's top, bottom, left, right edge order: the source emits
(-1, 0) fourth, where the spec's order has (-1, 1). -/
theorem ring_order_counterexample :
    ringAt (0, 0) 1 ≠ specRingOrder (0, 0) 1 ∧
      ringAt (0, 0) 1 =
        [(-1, -1), (0, -1), (1, -1), (-1, 0), (1, 0), (-1, 1), (0, 1), (1, 1)] ∧
      specRingOrder (0, 0) 1 =
        [(-1, -1), (0, -1), (1, -1), (-1, 1), (0, 1), (1, 1), (-1, 0), (1, 0)] := by
  refine ⟨?_, by decide, by decide⟩
  decide

/-- C8 amended: within each ring the source covers the top edge left to
right, then each intermediate row from top to bottom contributing its
left-edge point followed by its right-edge point, then the bottom edge
left to right. -/
theorem ring_order_amended (center : Position) (d : ℕ) (hd : 1 ≤ d) :
    ringAt center d =
      ringTop center d ++ ringMiddle center d ++ ringBottom center d :=
  ringAt_closed center d hd

/-- Witness for C8's amended order at ring 1 of centre (0, 0). -/
theorem ring_order_amended_witness :
    ringAt (0, 0) 1 =
      ringTop (0, 0) 1 ++ ringMiddle (0, 0) 1 ++ ringBottom (0, 0) 1 :=
  ring_order_amended (0, 0) 1 (by decide)

/-- C9: when the centre position itself is out of the accessor's range,
the initial unguarded lookup fails and no result is produced: the error
reaches the caller. -/
theorem center_oob_propagates (pixels : PixelAccessor) (pal : List Color)
    (w h : ℕ) (pos : Position) (hp : pixels pos = none) :
    nearest_rain pixels pal w h pos = none := by
  unfold nearest_rain
  rw [hp]

/-- Witness for C9: the centre (5, 5) lies outside the 2x2 image. -/
theorem center_oob_propagates_witness :
    nearest_rain pixelsWhite2 redPalette 2 2 (5, 5) = none :=
  center_oob_propagates pixelsWhite2 redPalette 2 2 (5, 5) (by decide)

/-- C3: when the centre's own pixel colour is in the palette, the call
returns [0, 0, 0, 0] at once, and the centre lookup is the only pixel
access performed. -/
theorem raining_center_shortcircuit (pixels : PixelAccessor)
    (pal : List Color) (w h : ℕ) (pos : Position) (c : Color)
    (hp : pixels pos = some c) (hc : c ∈ pal) :
    nearest_rain pixels pal w h pos = some [0, 0, 0, 0] ∧
      nearest_rain_accesses pixels pal w h pos = [pos] := by
  unfold nearest_rain nearest_rain_accesses
  rw [hp]
  simp [hc]

/-- Witness for C3: rain at the centre of the 3x3 image. -/
theorem raining_center_shortcircuit_witness :
    nearest_rain pixelsCentre redPalette 3 3 (1, 1) = some [0, 0, 0, 0] ∧
      nearest_rain_accesses pixelsCentre redPalette 3 3 (1, 1) = [(1, 1)] :=
  raining_center_shortcircuit pixelsCentre redPalette 3 3 (1, 1)
    (255, 0, 0) (by decide) (by decide)

/-- C7: an out-of-range coordinate yielded by the spiral (the accessor
raises on it) is skipped as if it were not rain, leaving the scan state
unchanged, and whenever the centre lookup itself succeeds the whole call
returns a result: the scan never aborts. -/
theorem oob_points_skipped :
    (∀ (pixels : PixelAccessor) (pal : List Color) (pos p : Position)
        (rest : List Position) (q : List ((ℤ × ℤ) × Position)),
        pixels p = none →
        scanLoop pixels pal pos (p :: rest) q =
          scanLoop pixels pal pos rest q) ∧
      (∀ (pixels : PixelAccessor) (pal : List Color) (w h : ℕ)
        (pos : Position) (c : Color), pixels pos = some c →
        (nearest_rain pixels pal w h pos).isSome) := by
  constructor
  · intro pixels pal pos p rest q hp
    have hstep : scanLoop pixels pal pos (p :: rest) q =
        if 4 ≤ q.length then q
        else
          match pixels p with
          | none => scanLoop pixels pal pos rest q
          | some col =>
            if col ∈ pal then
              if (lookupKey (cmp p.1 pos.1, cmp p.2 pos.2) q).isSome then
                scanLoop pixels pal pos rest q
              else
                scanLoop pixels pal pos rest
                  (q ++ [((cmp p.1 pos.1, cmp p.2 pos.2), p)])
            else scanLoop pixels pal pos rest q := rfl
    rw [hstep, hp]
    by_cases h4 : 4 ≤ q.length
    · rw [if_pos h4, scanLoop_stopped pixels pal pos rest q h4]
    · rw [if_neg h4]
  · intro pixels pal w h pos c hp
    unfold nearest_rain
    rw [hp]
    by_cases hc : c ∈ pal <;> simp [hc]

/-- Witness for C7: centre at the corner (0, 0) of a 2x2 image; the
spiral's negative coordinates are skipped and the call returns. -/
theorem oob_points_skipped_witness :
    scanLoop pixelsWhite2 redPalette (0, 0) [(-1, -1)] [] =
        scanLoop pixelsWhite2 redPalette (0, 0) [] [] ∧
      (nearest_rain pixelsWhite2 redPalette 2 2 (0, 0)).isSome :=
  ⟨oob_points_skipped.1 pixelsWhite2 redPalette (0, 0) (-1, -1) [] []
      (by decide),
    oob_points_skipped.2 pixelsWhite2 redPalette 2 2 (0, 0)
      (255, 255, 255) (by decide)⟩

/-- C6: once the quadrants dict holds entries for all four quadrant keys
NW, SW, NE, SE, continuing the scan over any further points performs no
additional pixel accesses. -/
theorem no_access_after_four (pixels : PixelAccessor) (pal : List Color)
    (pos : Position) (l₁ l₂ : List Position)
    (h : ∀ k ∈ quadKeys,
      (lookupKey k (scanLoop pixels pal pos l₁ [])).isSome) :
    (scanLoopTr pixels pal pos (l₁ ++ l₂) []).2 =
      (scanLoopTr pixels pal pos l₁ []).2 :=
  scanLoopTr_append pixels pal pos l₁ [] l₂
    (four_le_length_of_quadKeys _ h)

/-- Witness for C6: all four quadrants resolve within ring 1 of the
diagonal-rain image, so appending one more point adds no access. -/
theorem no_access_after_four_witness :
    (scanLoopTr pixelsDiag redPalette (1, 1)
        (ringAt (1, 1) 1 ++ [(9, 9)]) []).2 =
      (scanLoopTr pixelsDiag redPalette (1, 1) (ringAt (1, 1) 1) []).2 :=
  no_access_after_four pixelsDiag redPalette (1, 1) (ringAt (1, 1) 1)
    [(9, 9)] (by decide)

/-- C5: if the scan records position p for a quadrant key, the value the
result reports for that quadrant is the floor of the exact Euclidean
distance from p to the centre (not the rounded or ceiling value), and it
is emitted in the result list. -/
theorem quadrant_distance_floor (pixels : PixelAccessor) (pal : List Color)
    (w h : ℕ) (pos : Position) (k : ℤ × ℤ) (p : Position)
    (hk : k ∈ quadKeys)
    (hp : lookupKey k (scanOf pixels pal w h pos) = some p) :
    ((floorDistance p pos : ℤ) = ⌊distance p pos⌋) ∧
      floorDistance p pos ∈ resultOf (scanOf pixels pal w h pos) pos := by
  refine ⟨floorDistance_eq_floor p pos, ?_⟩
  have hmem : k ∈ allSignPairs := by
    have hqk : ∀ x ∈ quadKeys, x ∈ allSignPairs := by decide
    exact hqk k hk
  unfold resultOf
  rw [List.mem_filterMap]
  exact ⟨k, hmem, by rw [hp]; rfl⟩

/-- Witness for C5: the NW quadrant records (0, 0) from centre (1, 1). -/
theorem quadrant_distance_floor_witness :
    ((floorDistance (0, 0) (1, 1) : ℤ) = ⌊distance (0, 0) (1, 1)⌋) ∧
      floorDistance (0, 0) (1, 1) ∈
        resultOf (scanOf pixelsNW redPalette 3 3 (1, 1)) (1, 1) :=
  quadrant_distance_floor pixelsNW redPalette 3 3 (1, 1) (-1, -1) (0, 0)
    (by decide) (by decide)

/-- C1 counterexample: with rain only at (1, 0), directly north of the
centre (1, 1), no quadrant is resolved, yet the call returns the
one-element sequence [1]: the result is not a subsequence of the resolved
quadrants' distances taken in the order NW, SW, NE, SE (that sequence is
empty here). -/
theorem result_order_counterexample :
    nearest_rain pixelsNorth redPalette 3 3 (1, 1) = some [1] ∧
      (quadKeys.filterMap fun k =>
        (lookupKey k (scanOf pixelsNorth redPalette 3 3 (1, 1))).map fun p =>
          floorDistance p (1, 1)) = [] := by
  constructor
  · decide
  · decide

/-- C1 amended: the result holds at most four elements, and the resolved
quadrants' floored distances appear within it in the fixed order NW, SW,
NE, SE; however entries recorded under sign keys with a zero component
(rain on the centre's own row or column) may be interleaved among them. -/
theorem result_order_amended (pixels : PixelAccessor) (pal : List Color)
    (w h : ℕ) (pos : Position) (r : List ℕ)
    (hr : nearest_rain pixels pal w h pos = some r) :
    r.length ≤ 4 ∧
      ∀ c : Color, pixels pos = some c → c ∉ pal →
        List.Sublist
          (quadKeys.filterMap fun k =>
            (lookupKey k (scanOf pixels pal w h pos)).map fun p =>
              floorDistance p pos)
          r := by
  unfold nearest_rain at hr
  cases hpx : pixels pos with
  | none =>
    rw [hpx] at hr
    have hr' : (none : Option (List ℕ)) = some r := hr
    exact absurd hr' (by simp)
  | some c =>
    rw [hpx] at hr
    have hr' : (if c ∈ pal then some [0, 0, 0, 0]
        else some (resultOf (scanOf pixels pal w h pos) pos)) = some r := hr
    by_cases hc : c ∈ pal
    · rw [if_pos hc] at hr'
      have hrr : r = [0, 0, 0, 0] := by
        have := hr'.symm
        simpa using this
      refine ⟨by simp [hrr], ?_⟩
      intro c' hc' hcn
      cases hc'
      exact absurd hc hcn
    · rw [if_neg hc] at hr'
      have hrr : r = resultOf (scanOf pixels pal w h pos) pos := by
        have := hr'.symm
        simpa using this
      subst hrr
      constructor
      · calc (resultOf (scanOf pixels pal w h pos) pos).length ≤
            (scanOf pixels pal w h pos).length := resultOf_length_le _ _
          _ ≤ 4 := scanLoop_length_le pixels pal pos _ [] (by simp)
      · intro c' _ _
        unfold resultOf
        exact List.Sublist.filterMap _
          (by decide : List.Sublist quadKeys allSignPairs)

/-- Witness for C1's amended shape on the north-rain image: the resolved
quadrant sequence (empty) is a sublist of the returned [1], which has at
most four elements. -/
theorem result_order_amended_witness :
    ([1] : List ℕ).length ≤ 4 ∧
      List.Sublist
        (quadKeys.filterMap fun k =>
          (lookupKey k (scanOf pixelsNorth redPalette 3 3 (1, 1))).map
            fun p => floorDistance p (1, 1))
        [1] :=
  ⟨(result_order_amended pixelsNorth redPalette 3 3 (1, 1) [1]
      (by decide)).1,
    (result_order_amended pixelsNorth redPalette 3 3 (1, 1) [1]
      (by decide)).2 (255, 255, 255) (by decide) (by decide)⟩

/-- C2, evaluated at the failing input: with rain only at (1, 2), directly
south of the centre (1, 1), the scan records the point under the
zero-component key (0, 1) as the dict's sole entry, and the call emits
its floored distance as an output element, returning [1] instead of the
empty result the claim implies. -/
theorem axis_rain_emitted :
    nearest_rain pixelsSouth redPalette 3 3 (1, 1) = some [1] ∧
      scanOf pixelsSouth redPalette 3 3 (1, 1) = [((0, 1), (1, 2))] := by
  constructor
  · decide
  · decide

end RainRadar
